import Mathlib

/-!
Verification development for the `minitorch` Module/Parameter core
(`src/minitorch/module.py`).

The development has two layers:

* an *attribute layer* modelling one Python `Module` object's dynamic
  attribute protocol (`__setattr__`, `__getattr__`, `add_parameter`) and the
  `Parameter` cell, with registries holding dynamically-typed values, and
* a *heap layer* modelling a whole module graph as a map from node ids to
  node records, over which the `train` (level-list) and `eval` (deque)
  traversals are defined exactly as in the source, with an explicit fuel
  bound so that non-termination on cyclic graphs is observable as `none`.
-/

set_option autoImplicit false

namespace Minitorch

/-- A duck-typed Python value that may be wrapped by a `Parameter`.
`supportsGrad` models `hasattr(x, "requires_grad_")`; `requires_grad` is the
flag that `x.requires_grad_(True)` sets; `vname` is the value's own `name`
attribute; `data` is an abstract payload distinguishing values. -/
structure PyVal where
  supportsGrad : Bool
  requires_grad : Bool
  vname : Option String
  data : Nat
deriving DecidableEq, Repr

/-- Python truthiness of an `Optional[str]`: `None` and `""` are falsy. -/
def strTruthy : Option String → Bool
  | none => false
  | some s => decide (s ≠ "")

/-- The `Parameter` container: `value` and optional `name`
(`Parameter.__init__` stores both and then conditionally propagates). -/
structure Parameter where
  value : PyVal
  name : Option String
deriving DecidableEq, Repr

/-- `Parameter.__init__(x, name)`: store `x` and `name`; if
`hasattr(x, "requires_grad_")` call `x.requires_grad_(True)` and, if
`self.name` is truthy, set `self.value.name = self.name`. -/
def Parameter.init (x : PyVal) (name : Option String) : Parameter :=
  if x.supportsGrad then
    let v1 := { x with requires_grad := true }
    if strTruthy name then ⟨{ v1 with vname := name }, name⟩
    else ⟨v1, name⟩
  else ⟨x, name⟩

/-- `Parameter.update(x)`: `self.value = x`, then the same conditional
gradient-tracking and name propagation as in `__init__`. -/
def Parameter.update (p : Parameter) (x : PyVal) : Parameter :=
  if x.supportsGrad then
    let v1 := { x with requires_grad := true }
    if strTruthy p.name then ⟨{ v1 with vname := p.name }, p.name⟩
    else ⟨v1, p.name⟩
  else ⟨x, p.name⟩

/-- Node ids for `Module` objects living in a heap. -/
abbrev NodeId := Nat

/-- A dynamically-typed Python value assigned to a `Module` attribute:
a `Parameter`, a `Module` (by id), or anything else. `isinstance` dispatch
in `__setattr__` becomes matching on the constructor. -/
inductive Dyn where
  | dparam : Parameter → Dyn
  | dmodule : NodeId → Dyn
  | dother : PyVal → Dyn
deriving DecidableEq, Repr

/-- Insertion-ordered Python `dict` assignment `d[k] = v`: an existing key
keeps its position and gets the new value; a new key is appended. -/
def dictSet {α : Type} : List (String × α) → String → α → List (String × α)
  | [], k, v => [(k, v)]
  | (k', v') :: rest, k, v =>
      if k' = k then (k, v) :: rest else (k', v') :: dictSet rest k v

/-- Python `d[k]` / `k in d` lookup on the ordered association list. -/
def dictGet {α : Type} : List (String × α) → String → Option α
  | [], _ => none
  | (k', v') :: rest, k => if k' = k then some v' else dictGet rest k

/-- The dynamic-attribute state of a single `Module` object: the two
registries set up by `__init__` plus the ordinary instance attributes that
`super().__setattr__` writes. Registries hold arbitrary `Dyn` values; that
only well-typed values ever land there is an invariant to prove, not an
assumption. -/
structure DNode where
  _modules : List (String × Dyn)
  _parameters : List (String × Dyn)
  attrs : List (String × Dyn)
deriving DecidableEq, Repr

/-- `Module.__init__`: `self._modules = {}`, `self._parameters = {}`
(dicts are neither `Parameter` nor `Module`, so they become the plain
registries of the fresh object; `self.training = True` likewise becomes an
ordinary attribute, modelled in the heap layer's `training` field). -/
def Module.initNode : DNode := ⟨[], [], []⟩

/-- `Module.__setattr__(key, val)`: route by the dynamic type of `val` —
`Parameter`s into `_parameters`, `Module`s into `_modules`, everything else
through `super().__setattr__` into the ordinary attributes. -/
def Module.setattr (n : DNode) (key : String) (val : Dyn) : DNode :=
  match val with
  | .dparam _ => { n with _parameters := dictSet n._parameters key val }
  | .dmodule _ => { n with _modules := dictSet n._modules key val }
  | .dother _ => { n with attrs := dictSet n.attrs key val }

/-- `Module.__getattr__(key)`: if `key` is in `_parameters` return that
entry; else if in `_modules` return that entry; else return `None`
(modelled as `none`) — no exception. -/
def Module.getattr (n : DNode) (key : String) : Option Dyn :=
  match dictGet n._parameters key with
  | some v => some v
  | none =>
    match dictGet n._modules key with
    | some v => some v
    | none => none

/-- `Module.add_parameter(k, v)`: build `Parameter(v, k)`, write it
directly into `self.__dict__["_parameters"][k]` (bypassing `__setattr__`),
and return it. -/
def Module.add_parameter (n : DNode) (k : String) (v : PyVal) :
    DNode × Parameter :=
  let val := Parameter.init v (some k)
  ({ n with _parameters := dictSet n._parameters k (.dparam val) }, val)

/-- A Python call result: a normal return or a raised `NotImplementedError`. -/
inductive PyResult (α : Type) where
  | ok : α → PyResult α
  | notImplError : String → PyResult α
deriving DecidableEq

/-- One public mutating operation on a `Module` object: an attribute
assignment or an `add_parameter` call. -/
inductive POp where
  | setA : String → Dyn → POp
  | addP : String → PyVal → POp

/-- Apply one public operation to a module object's state. -/
def applyOp (n : DNode) : POp → DNode
  | .setA k v => Module.setattr n k v
  | .addP k x => (Module.add_parameter n k x).1

/-- The module state after a sequence of public operations on a freshly
constructed `Module()`. -/
def runOps (ops : List POp) : DNode := ops.foldl applyOp Module.initNode

/-- Registry well-typedness: every `_parameters` entry is a `Parameter`
value and every `_modules` entry is a `Module` value. -/
def WellTypedD (n : DNode) : Prop :=
  (∀ kv ∈ n._parameters, ∃ p, kv.2 = Dyn.dparam p) ∧
  (∀ kv ∈ n._modules, ∃ m, kv.2 = Dyn.dmodule m)

/-! ### Heap layer: module graphs and the `train`/`eval` traversals -/

/-- One `Module` object as the traversals see it: its `_modules` registry
(names and child ids, in insertion order), its `_parameters` registry, and
its `training` flag. By the registry well-typedness invariant the `_modules`
values are module references. -/
structure MNode where
  modules : List (String × NodeId)
  parameters : List (String × Parameter)
  training : Bool
deriving DecidableEq

/-- A heap of module objects, indexed by node id. -/
abbrev Heap := NodeId → MNode

/-- `self._modules.values()`: child ids of a node, in registry order. -/
def childIds (h : Heap) (n : NodeId) : List NodeId :=
  ((h n).modules).map Prod.snd

/-- Overwrite one node's `training` flag. -/
def setB (x : MNode) (b : Bool) : MNode := { x with training := b }

/-- `node.training = b`: in-place mutation of one heap object. -/
def setTraining (h : Heap) (n : NodeId) (b : Bool) : Heap :=
  fun i => if i = n then setB (h i) b else h i

/-- The body of the `for node in nodes_to_process` loop of `Module.train`:
set `node.training = True` and extend `future_nodes` with
`node._modules.values()`, in order, threading the heap. Returns the heap
after the level and the next level's node list. -/
def processLevel (h : Heap) : List NodeId → Heap × List NodeId
  | [] => (h, [])
  | n :: rest =>
    let h1 := setTraining h n true
    let r := processLevel h1 rest
    (r.1, childIds h1 n ++ r.2)

/-- The `while nodes_to_process` loop of `Module.train`, processing one
level per fuel unit; `none` models the loop still running when the fuel is
exhausted. -/
def trainLevels (h : Heap) : List NodeId → Nat → Option Heap
  | [], _ => some h
  | _ :: _, 0 => none
  | n :: rest, fuel + 1 =>
    let r := processLevel h (n :: rest)
    trainLevels r.1 r.2 fuel

/-- The `while que` loop of `Module.eval`: pop the left end, set
`node.training = False`, extend the deque on the right with
`node._modules.values()`. -/
def evalQueue (h : Heap) : List NodeId → Nat → Option Heap
  | [], _ => some h
  | _ :: _, 0 => none
  | n :: rest, fuel + 1 =>
    let h1 := setTraining h n false
    evalQueue h1 (rest ++ childIds h1 n) fuel

/-- `Module.train()`: `self.training = True`, then the level-list walk over
`self._modules.values()`. -/
def Module.train (h : Heap) (self : NodeId) (fuel : Nat) : Option Heap :=
  let h0 := setTraining h self true
  trainLevels h0 (childIds h0 self) fuel

/-- `Module.eval()`: `self.training = False`, then the deque-based walk
over `self._modules.values()`. -/
def Module.eval (h : Heap) (self : NodeId) (fuel : Nat) : Option Heap :=
  let h0 := setTraining h self false
  evalQueue h0 (childIds h0 self) fuel

/-- `Module.named_parameters()`: the body is
`raise NotImplementedError("Need to implement for Task 0.4")`; no state is
touched, so the heap comes back unchanged alongside the raised error. -/
def Module.named_parameters (h : Heap) (_self : NodeId) :
    PyResult (List (String × Parameter)) × Heap :=
  (.notImplError "Need to implement for Task 0.4", h)

/-- `Module.parameters()`: likewise
`raise NotImplementedError("Need to implement for Task 0.4")`. -/
def Module.parameters (h : Heap) (_self : NodeId) :
    PyResult (List Parameter) × Heap :=
  (.notImplError "Need to implement for Task 0.4", h)

/-! ### Trees, reachability and cycles -/

/-- Finite unfolding trees of node ids; a heap node that is represented by
such a tree has an acyclic (in particular, tree-shaped) `_modules` graph. -/
inductive MTree where
  | node : NodeId → List MTree → MTree

/-- The id at the root of an unfolding tree. -/
def MTree.root : MTree → NodeId
  | .node i _ => i

/-- The child trees at the root. -/
def MTree.kids : MTree → List MTree
  | .node _ cs => cs

mutual

/-- Number of nodes of an unfolding tree. -/
def MTree.size : MTree → Nat
  | .node _ cs => 1 + MTree.sizeL cs

/-- Total number of nodes of a forest. -/
def MTree.sizeL : List MTree → Nat
  | [] => 0
  | t :: ts => MTree.size t + MTree.sizeL ts

end

/-- `Represents h t`: the `_modules` graph of heap `h` below `t.root`
unfolds exactly to the tree `t`. -/
inductive Represents (h : Heap) : MTree → Prop where
  | node : ∀ (i : NodeId) (cs : List MTree),
      childIds h i = cs.map MTree.root →
      (∀ c ∈ cs, Represents h c) →
      Represents h (.node i cs)

/-- Reachability through the `_modules` registries. -/
inductive Reach (h : Heap) : NodeId → NodeId → Prop where
  | refl : ∀ n, Reach h n n
  | step : ∀ a c b, c ∈ childIds h a → Reach h c b → Reach h a b

/-- `c` lies on a `_modules` cycle. -/
def CycleAt (h : Heap) (c : NodeId) : Prop :=
  ∃ d ∈ childIds h c, Reach h d c

/-- A `_modules` cycle is reachable from `n`. -/
def ReachesCycle (h : Heap) (n : NodeId) : Prop :=
  ∃ c, Reach h n c ∧ CycleAt h c

/-! ### Association-list dictionary lemmas -/

theorem dictGet_dictSet_self {α : Type} (d : List (String × α)) (k : String)
    (v : α) : dictGet (dictSet d k v) k = some v := by
  induction d with
  | nil => simp [dictSet, dictGet]
  | cons kv rest ih =>
    obtain ⟨k', v'⟩ := kv
    by_cases hk : k' = k
    · simp [dictSet, hk, dictGet]
    · simp [dictSet, hk, dictGet, ih]

theorem dictGet_dictSet_other {α : Type} (d : List (String × α))
    (k k' : String) (v : α) (hne : k' ≠ k) :
    dictGet (dictSet d k v) k' = dictGet d k' := by
  have hne' : ¬ k = k' := fun h => hne h.symm
  induction d with
  | nil => simp [dictSet, dictGet, hne']
  | cons kv rest ih =>
    obtain ⟨k'', v''⟩ := kv
    by_cases hk : k'' = k
    · subst hk
      simp [dictSet, dictGet, hne']
    · simp [dictSet, hk, dictGet, ih]

theorem mem_dictSet {α : Type} {d : List (String × α)} {k : String} {v : α}
    {kv : String × α} (hm : kv ∈ dictSet d k v) : kv.2 = v ∨ kv ∈ d := by
  induction d with
  | nil =>
    simp [dictSet] at hm
    subst hm; left; rfl
  | cons kv' rest ih =>
    obtain ⟨k', v'⟩ := kv'
    by_cases hk : k' = k
    · simp [dictSet, hk] at hm
      rcases hm with h | h
      · subst h; left; rfl
      · right; exact List.mem_cons_of_mem _ h
    · simp [dictSet, hk] at hm
      rcases hm with h | h
      · subst h; right; exact List.mem_cons_self _ _
      · rcases ih h with h2 | h2
        · left; exact h2
        · right; exact List.mem_cons_of_mem _ h2

/-! ### Attribute-layer claims -/

/-- An empty module graph: every id names a fresh `Module()`. -/
def emptyHeap : Heap := fun _ => ⟨[], [], true⟩

/-- C2 counterexample: on a freshly constructed `Module` (which owns zero
`Parameter`s), `named_parameters()` and `parameters()` do not return an
empty sequence — they raise `NotImplementedError` — so the claim that they
"do not fail" and "return an empty sequence" is false on this code. -/
theorem claim_C2_counterexample :
    (Module.named_parameters emptyHeap 0).1 ≠ PyResult.ok [] ∧
    (Module.parameters emptyHeap 0).1 ≠ PyResult.ok [] := by
  constructor <;> exact fun hcontra => PyResult.noConfusion hcontra

/-- C2 (amended): `named_parameters()` and `parameters()` never mutate any
registry (the state comes back unchanged), but they do not return a
sequence either: every call reports the explicit "not yet implemented"
failure `NotImplementedError("Need to implement for Task 0.4")`. -/
theorem claim_C2_amended (h : Heap) (self : NodeId) :
    Module.named_parameters h self
      = (PyResult.notImplError "Need to implement for Task 0.4", h) ∧
    Module.parameters h self
      = (PyResult.notImplError "Need to implement for Task 0.4", h) :=
  ⟨rfl, rfl⟩

/-- C3: `__setattr__` routes by dynamic type: a `Parameter` value lands in
`_parameters[k]` (changing no other key of that registry and leaving
`_modules` and the plain attributes untouched); a `Module` value lands in
`_modules[k]` symmetrically; any other value becomes an ordinary instance
attribute and appears in neither registry. -/
theorem claim_C3_setattr_routing (n : DNode) (k : String) :
    (∀ p : Parameter,
      dictGet (Module.setattr n k (.dparam p))._parameters k
          = some (.dparam p) ∧
      (∀ k', k' ≠ k →
        dictGet (Module.setattr n k (.dparam p))._parameters k'
          = dictGet n._parameters k') ∧
      (Module.setattr n k (.dparam p))._modules = n._modules ∧
      (Module.setattr n k (.dparam p)).attrs = n.attrs) ∧
    (∀ m : NodeId,
      dictGet (Module.setattr n k (.dmodule m))._modules k
          = some (.dmodule m) ∧
      (∀ k', k' ≠ k →
        dictGet (Module.setattr n k (.dmodule m))._modules k'
          = dictGet n._modules k') ∧
      (Module.setattr n k (.dmodule m))._parameters = n._parameters ∧
      (Module.setattr n k (.dmodule m)).attrs = n.attrs) ∧
    (∀ x : PyVal,
      (Module.setattr n k (.dother x))._parameters = n._parameters ∧
      (Module.setattr n k (.dother x))._modules = n._modules ∧
      dictGet (Module.setattr n k (.dother x)).attrs k = some (.dother x)) := by
  refine ⟨fun p => ⟨?_, fun k' hk' => ?_, rfl, rfl⟩,
    fun m => ⟨?_, fun k' hk' => ?_, rfl, rfl⟩,
    fun x => ⟨rfl, rfl, ?_⟩⟩
  · simp [Module.setattr, dictGet_dictSet_self]
  · simp [Module.setattr, dictGet_dictSet_other _ _ _ _ hk']
  · simp [Module.setattr, dictGet_dictSet_self]
  · simp [Module.setattr, dictGet_dictSet_other _ _ _ _ hk']
  · simp [Module.setattr, dictGet_dictSet_self]

/-- C3 witness at a concrete node, key and values. -/
theorem claim_C3_setattr_routing_witness :
    dictGet (Module.setattr Module.initNode "w"
        (.dparam ⟨⟨false, false, none, 5⟩, none⟩))._parameters "w"
      = some (.dparam ⟨⟨false, false, none, 5⟩, none⟩) ∧
    dictGet (Module.setattr Module.initNode "w"
        (.dparam ⟨⟨false, false, none, 5⟩, none⟩))._parameters "z"
      = dictGet Module.initNode._parameters "z" ∧
    (Module.setattr Module.initNode "c" (.dmodule 7))._parameters
      = Module.initNode._parameters ∧
    dictGet (Module.setattr Module.initNode "c" (.dmodule 7))._modules "c"
      = some (.dmodule 7) := by
  refine ⟨(claim_C3_setattr_routing Module.initNode "w").1 _ |>.1,
    (claim_C3_setattr_routing Module.initNode "w").1 _ |>.2.1 "z" ?_,
    (claim_C3_setattr_routing Module.initNode "c").2.1 7 |>.2.2.1,
    (claim_C3_setattr_routing Module.initNode "c").2.1 7 |>.1⟩
  decide

/-- C4: `__getattr__` returns the `_parameters` entry when the key is
registered there, else the `_modules` entry when registered there, else
`None` — and never raises (the embedding is a total function). -/
theorem claim_C4_getattr (n : DNode) (k : String) :
    (∀ v, dictGet n._parameters k = some v → Module.getattr n k = some v) ∧
    (dictGet n._parameters k = none →
      ∀ v, dictGet n._modules k = some v → Module.getattr n k = some v) ∧
    (dictGet n._parameters k = none → dictGet n._modules k = none →
      Module.getattr n k = none) := by
  refine ⟨fun v hv => ?_, fun h1 v hv => ?_, fun h1 h2 => ?_⟩ <;>
    simp [Module.getattr, *]

/-- C4 witness on a node with one parameter and one child module. -/
theorem claim_C4_getattr_witness :
    Module.getattr ⟨[("c", .dmodule 3)],
        [("w", .dparam ⟨⟨false, false, none, 5⟩, none⟩)], []⟩ "w"
      = some (.dparam ⟨⟨false, false, none, 5⟩, none⟩) ∧
    Module.getattr ⟨[("c", .dmodule 3)],
        [("w", .dparam ⟨⟨false, false, none, 5⟩, none⟩)], []⟩ "c"
      = some (.dmodule 3) ∧
    Module.getattr ⟨[("c", .dmodule 3)],
        [("w", .dparam ⟨⟨false, false, none, 5⟩, none⟩)], []⟩ "z"
      = none := by
  refine ⟨(claim_C4_getattr _ "w").1 _ (by decide),
    (claim_C4_getattr _ "c").2.1 (by decide) _ (by decide),
    (claim_C4_getattr _ "z").2.2 (by decide) (by decide)⟩

/-- C6 counterexample: a `Parameter` whose `name` is the empty string
*has* a name (`p.name = some ""`), and the new value exposes the
gradient-tracking capability, yet `update` does not propagate the name into
the value (Python's `if self.name:` treats `""` as falsy). -/
theorem claim_C6_counterexample :
    (⟨⟨false, false, none, 0⟩, some ""⟩ : Parameter).name = some "" ∧
    (⟨true, false, none, 1⟩ : PyVal).supportsGrad = true ∧
    (Parameter.update ⟨⟨false, false, none, 0⟩, some ""⟩
        ⟨true, false, none, 1⟩).value.vname ≠ some "" := by
  refine ⟨rfl, rfl, ?_⟩
  simp [Parameter.update, strTruthy]

/-- C6 (amended): `update(x)` replaces the value with `x`, re-applying the
construction rule (`update p x = Parameter(x, p.name)` up to the stored
fields); if `x` exposes `requires_grad_` the capability is activated and,
when `p` has a *truthy* (non-`None`, non-empty) name, that name is
propagated into the value; if `x` lacks the capability nothing is
propagated and no error occurs; no history of the previous value remains
(the result depends only on `x` and `p.name`). -/
theorem claim_C6_amended (p : Parameter) (x : PyVal) :
    Parameter.update p x = Parameter.init x p.name ∧
    (Parameter.update p x).name = p.name ∧
    (x.supportsGrad = false → Parameter.update p x = ⟨x, p.name⟩) ∧
    (x.supportsGrad = true →
      (Parameter.update p x).value.requires_grad = true ∧
      (Parameter.update p x).value.data = x.data ∧
      (strTruthy p.name = true →
        (Parameter.update p x).value.vname = p.name) ∧
      (strTruthy p.name = false →
        (Parameter.update p x).value.vname = x.vname)) := by
  unfold Parameter.update Parameter.init
  cases hx : x.supportsGrad <;> cases ht : strTruthy p.name <;>
    simp [hx, ht]

/-- C6 witness at a concrete parameter and capability-bearing value. -/
theorem claim_C6_amended_witness :
    Parameter.update ⟨⟨false, false, none, 0⟩, some "w"⟩ ⟨true, false, none, 1⟩
      = Parameter.init ⟨true, false, none, 1⟩ (some "w") ∧
    (Parameter.update ⟨⟨false, false, none, 0⟩, some "w"⟩
        ⟨true, false, none, 1⟩).value.requires_grad = true ∧
    (Parameter.update ⟨⟨false, false, none, 0⟩, some "w"⟩
        ⟨true, false, none, 1⟩).value.vname = some "w" := by
  have h := claim_C6_amended ⟨⟨false, false, none, 0⟩, some "w"⟩
    ⟨true, false, none, 1⟩
  exact ⟨h.1, (h.2.2.2 rfl).1, (h.2.2.2 rfl).2.2.1 (by decide)⟩

/-- Every step of the public interface preserves registry well-typedness. -/
theorem wellTypedD_applyOp {n : DNode} (hn : WellTypedD n) (op : POp) :
    WellTypedD (applyOp n op) := by
  obtain ⟨hp, hm⟩ := hn
  cases op with
  | setA k v =>
    cases v with
    | dparam p =>
      refine ⟨fun kv hkv => ?_, hm⟩
      rcases mem_dictSet hkv with h | h
      · exact ⟨p, h⟩
      · exact hp kv h
    | dmodule m =>
      refine ⟨hp, fun kv hkv => ?_⟩
      rcases mem_dictSet hkv with h | h
      · exact ⟨m, h⟩
      · exact hm kv h
    | dother x => exact ⟨hp, hm⟩
  | addP k x =>
    refine ⟨fun kv hkv => ?_, hm⟩
    rcases mem_dictSet hkv with h | h
    · exact ⟨Parameter.init x (some k), h⟩
    · exact hp kv h

theorem wellTypedD_foldl :
    ∀ (ops : List POp) (n : DNode), WellTypedD n →
      WellTypedD (ops.foldl applyOp n)
  | [], _, hn => hn
  | op :: ops, _, hn => wellTypedD_foldl ops _ (wellTypedD_applyOp hn op)

/-- C10: registry well-typedness is an invariant of the public interface:
after any sequence of attribute assignments and `add_parameter` calls on a
freshly constructed `Module`, every `_parameters` entry is a `Parameter`
and every `_modules` entry is a `Module`. -/
theorem claim_C10_wellTyped (ops : List POp) : WellTypedD (runOps ops) :=
  wellTypedD_foldl ops Module.initNode
    ⟨fun kv hkv => absurd hkv (List.not_mem_nil kv),
     fun kv hkv => absurd hkv (List.not_mem_nil kv)⟩

/-! ### Basic heap lemmas -/

theorem setB_setB (x : MNode) (b b' : Bool) : setB (setB x b) b' = setB x b' :=
  rfl

theorem setB_modules (x : MNode) (b : Bool) : (setB x b).modules = x.modules :=
  rfl

theorem setB_parameters (x : MNode) (b : Bool) :
    (setB x b).parameters = x.parameters := rfl

theorem setB_training (x : MNode) (b : Bool) : (setB x b).training = b := rfl

theorem setB_eq_self {x : MNode} {b : Bool} (ht : x.training = b) :
    setB x b = x := by
  cases x; cases ht; rfl

theorem childIds_setTraining (h : Heap) (n : NodeId) (b : Bool) (i : NodeId) :
    childIds (setTraining h n b) i = childIds h i := by
  by_cases hi : i = n <;> simp [childIds, setTraining, setB, hi]

/-- Ordered concatenation of the images of a list, as `future_nodes.extend`
and `que.extend` produce it. -/
def concatMap {α β : Type} (f : α → List β) : List α → List β
  | [] => []
  | a :: rest => f a ++ concatMap f rest

theorem mem_concatMap {α β : Type} {f : α → List β} {l : List α} {b : β} :
    b ∈ concatMap f l ↔ ∃ a ∈ l, b ∈ f a := by
  induction l with
  | nil => simp [concatMap]
  | cons a rest ih => simp [concatMap, ih]

theorem concatMap_congr {α β : Type} {f g : α → List β} {l : List α}
    (hfg : ∀ a ∈ l, f a = g a) : concatMap f l = concatMap g l := by
  induction l with
  | nil => rfl
  | cons a rest ih =>
    simp only [concatMap]
    rw [hfg a (List.mem_cons_self a rest),
      ih (fun x hx => hfg x (List.mem_cons_of_mem a hx))]

theorem map_concatMap {α β γ : Type} (g : β → γ) (f : α → List β)
    (l : List α) :
    (concatMap f l).map g = concatMap (fun a => (f a).map g) l := by
  induction l with
  | nil => rfl
  | cons a rest ih => simp [concatMap, ih]

theorem concatMap_map {α β γ : Type} (f : β → List γ) (g : α → β)
    (l : List α) : concatMap f (l.map g) = concatMap (fun a => f (g a)) l := by
  induction l with
  | nil => rfl
  | cons a rest ih => simp [concatMap, ih]

/-- The per-level loop sets exactly the listed nodes to `training = True`
and leaves every other object untouched. -/
theorem processLevel_fst (ns : List NodeId) :
    ∀ (h : Heap) (i : NodeId),
      ((processLevel h ns).1) i = if i ∈ ns then setB (h i) true else h i := by
  induction ns with
  | nil => intro h i; simp [processLevel]
  | cons n rest ih =>
    intro h i
    simp only [processLevel]
    rw [ih (setTraining h n true) i]
    by_cases hn : i = n
    · subst hn
      simp [setTraining, setB_setB, List.mem_cons]
    · by_cases hr : i ∈ rest <;>
        simp [setTraining, hn, hr, List.mem_cons]

/-- The per-level loop collects the children of the listed nodes, in
order. -/
theorem processLevel_snd (ns : List NodeId) :
    ∀ h : Heap, (processLevel h ns).2 = concatMap (childIds h) ns := by
  induction ns with
  | nil => intro h; rfl
  | cons n rest ih =>
    intro h
    simp only [processLevel, concatMap]
    rw [ih (setTraining h n true), childIds_setTraining,
      concatMap_congr (fun a _ => childIds_setTraining h n true a)]

theorem trainLevels_nil (h : Heap) (fuel : Nat) :
    trainLevels h [] fuel = some h := by cases fuel <;> rfl

theorem trainLevels_zero (h : Heap) (n : NodeId) (rest : List NodeId) :
    trainLevels h (n :: rest) 0 = none := rfl

theorem trainLevels_cons (h : Heap) (n : NodeId) (rest : List NodeId)
    (fuel : Nat) :
    trainLevels h (n :: rest) (fuel + 1)
      = trainLevels (processLevel h (n :: rest)).1
          (processLevel h (n :: rest)).2 fuel := rfl

theorem evalQueue_nil (h : Heap) (fuel : Nat) :
    evalQueue h [] fuel = some h := by cases fuel <;> rfl

theorem evalQueue_zero (h : Heap) (n : NodeId) (rest : List NodeId) :
    evalQueue h (n :: rest) 0 = none := rfl

theorem evalQueue_cons (h : Heap) (n : NodeId) (rest : List NodeId)
    (fuel : Nat) :
    evalQueue h (n :: rest) (fuel + 1)
      = evalQueue (setTraining h n false)
          (rest ++ childIds (setTraining h n false) n) fuel := rfl

/-! ### Reachability lemmas -/

theorem Reach_congr {h h' : Heap}
    (hch : ∀ i, childIds h i = childIds h' i) {a b : NodeId}
    (hr : Reach h a b) : Reach h' a b := by
  induction hr with
  | refl n => exact Reach.refl n
  | step a c b hm _ ih => exact Reach.step a c b (hch a ▸ hm) ih

theorem reach_snoc {h : Heap} {a b c : NodeId} (hab : Reach h a b) :
    c ∈ childIds h b → Reach h a c := by
  induction hab with
  | refl n => intro hm; exact Reach.step n c c hm (Reach.refl c)
  | step x y z hxy _ ih => intro hm; exact Reach.step x y c hxy (ih hm)

theorem Represents_congr {h h' : Heap}
    (hch : ∀ i, childIds h i = childIds h' i) :
    ∀ {t : MTree}, Represents h t → Represents h' t := by
  intro t hrep
  induction hrep with
  | node i cs hc _ ih => exact Represents.node i cs (hch i ▸ hc) ih

/-! ### Characterization of the two traversal loops -/

/-- Closing step shared by both loop characterizations: when the worklist
is empty, the three invariants pin the current heap down exactly. -/
theorem heapRel_done (h0 : Heap) (root : NodeId) (hc : Heap) (b : Bool)
    (R1 : ∀ i, hc i = h0 i ∨ (Reach h0 root i ∧ hc i = setB (h0 i) b))
    (R3 : ∀ i, Reach h0 root i → (hc i).training = b) :
    ∀ i, (Reach h0 root i → hc i = setB (h0 i) b) ∧
         (¬ Reach h0 root i → hc i = h0 i) := by
  intro i
  constructor
  · intro hreach
    rcases R1 i with h1 | ⟨_, h1⟩
    · rw [h1]
      exact (setB_eq_self (h1 ▸ R3 i hreach)).symm
    · exact h1
  · intro hreach
    rcases R1 i with h1 | ⟨hr, _⟩
    · exact h1
    · exact absurd hr hreach

/-- Invariant-based characterization of the `while nodes_to_process` loop:
a terminating run from a state related to the base heap `h0` ends in the
base heap with every node reachable from `root` overwritten to
`training = True` and every other node untouched. -/
theorem trainLevels_char (h0 : Heap) (root : NodeId) :
    ∀ (fuel : Nat) (ns : List NodeId) (hc h' : Heap),
      (∀ i, hc i = h0 i ∨ (Reach h0 root i ∧ hc i = setB (h0 i) true)) →
      (∀ n ∈ ns, Reach h0 root n) →
      (∀ i, Reach h0 root i →
        (hc i).training = true ∨ ∃ n ∈ ns, Reach h0 n i) →
      trainLevels hc ns fuel = some h' →
      ∀ i, (Reach h0 root i → h' i = setB (h0 i) true) ∧
           (¬ Reach h0 root i → h' i = h0 i) := by
  intro fuel
  induction fuel with
  | zero =>
    intro ns hc h' R1 R2 R3 hrun
    cases ns with
    | nil =>
      rw [trainLevels_nil] at hrun
      obtain rfl : hc = h' := Option.some.inj hrun
      exact heapRel_done h0 root hc true R1 (fun i hr =>
        (R3 i hr).resolve_right (fun ⟨n, hn, _⟩ => List.not_mem_nil n hn))
    | cons n rest =>
      rw [trainLevels_zero] at hrun
      exact Option.noConfusion hrun
  | succ fuel ih =>
    intro ns hc h' R1 R2 R3 hrun
    cases ns with
    | nil =>
      rw [trainLevels_nil] at hrun
      obtain rfl : hc = h' := Option.some.inj hrun
      exact heapRel_done h0 root hc true R1 (fun i hr =>
        (R3 i hr).resolve_right (fun ⟨n, hn, _⟩ => List.not_mem_nil n hn))
    | cons n rest =>
      rw [trainLevels_cons] at hrun
      have hch : ∀ j, childIds hc j = childIds h0 j := by
        intro j
        rcases R1 j with h1 | ⟨_, h1⟩ <;>
          simp only [childIds, h1, setB_modules]
      have hfst : ∀ j, (processLevel hc (n :: rest)).1 j
          = if j ∈ n :: rest then setB (hc j) true else hc j :=
        processLevel_fst (n :: rest) hc
      have hsnd : (processLevel hc (n :: rest)).2
          = concatMap (childIds h0) (n :: rest) := by
        rw [processLevel_snd, concatMap_congr (fun a _ => hch a)]
      rw [hsnd] at hrun
      refine ih (concatMap (childIds h0) (n :: rest))
        (processLevel hc (n :: rest)).1 h' ?_ ?_ ?_ hrun
      · intro j
        rw [hfst j]
        by_cases hj : j ∈ n :: rest
        · rw [if_pos hj]
          refine Or.inr ⟨R2 j hj, ?_⟩
          rcases R1 j with h1 | ⟨_, h1⟩ <;> rw [h1]
          exact setB_setB _ _ _
        · rw [if_neg hj]
          exact R1 j
      · intro c hcmem
        obtain ⟨a, ha, hca⟩ := mem_concatMap.mp hcmem
        exact reach_snoc (R2 a ha) hca
      · intro j hreach
        by_cases hj : j ∈ n :: rest
        · left
          rw [hfst j, if_pos hj]
          rfl
        · rcases R3 j hreach with htr | ⟨m, hm, hmj⟩
          · left
            rw [hfst j, if_neg hj]
            exact htr
          · cases hmj with
            | refl => exact absurd hm hj
            | step a c b hmem hr =>
              right
              exact ⟨c, mem_concatMap.mpr ⟨m, hm, hmem⟩, hr⟩

/-- Invariant-based characterization of the `while que` loop of `eval`:
a terminating run ends in the base heap with every node reachable from
`root` overwritten to `training = False` and every other node untouched. -/
theorem evalQueue_char (h0 : Heap) (root : NodeId) :
    ∀ (fuel : Nat) (ns : List NodeId) (hc h' : Heap),
      (∀ i, hc i = h0 i ∨ (Reach h0 root i ∧ hc i = setB (h0 i) false)) →
      (∀ n ∈ ns, Reach h0 root n) →
      (∀ i, Reach h0 root i →
        (hc i).training = false ∨ ∃ n ∈ ns, Reach h0 n i) →
      evalQueue hc ns fuel = some h' →
      ∀ i, (Reach h0 root i → h' i = setB (h0 i) false) ∧
           (¬ Reach h0 root i → h' i = h0 i) := by
  intro fuel
  induction fuel with
  | zero =>
    intro ns hc h' R1 R2 R3 hrun
    cases ns with
    | nil =>
      rw [evalQueue_nil] at hrun
      obtain rfl : hc = h' := Option.some.inj hrun
      exact heapRel_done h0 root hc false R1 (fun i hr =>
        (R3 i hr).resolve_right (fun ⟨n, hn, _⟩ => List.not_mem_nil n hn))
    | cons n rest =>
      rw [evalQueue_zero] at hrun
      exact Option.noConfusion hrun
  | succ fuel ih =>
    intro ns hc h' R1 R2 R3 hrun
    cases ns with
    | nil =>
      rw [evalQueue_nil] at hrun
      obtain rfl : hc = h' := Option.some.inj hrun
      exact heapRel_done h0 root hc false R1 (fun i hr =>
        (R3 i hr).resolve_right (fun ⟨n, hn, _⟩ => List.not_mem_nil n hn))
    | cons n rest =>
      rw [evalQueue_cons] at hrun
      have hch : ∀ j, childIds hc j = childIds h0 j := by
        intro j
        rcases R1 j with h1 | ⟨_, h1⟩ <;>
          simp only [childIds, h1, setB_modules]
      have hch1 : ∀ j, childIds (setTraining hc n false) j = childIds h0 j :=
        fun j => (childIds_setTraining hc n false j).trans (hch j)
      have hstep : ∀ j, setTraining hc n false j
          = if j = n then setB (hc j) false else hc j := fun _ => rfl
      refine ih (rest ++ childIds (setTraining hc n false) n)
        (setTraining hc n false) h' ?_ ?_ ?_ hrun
      · intro j
        rw [hstep j]
        by_cases hj : j = n
        · rw [if_pos hj]
          refine Or.inr ⟨hj ▸ R2 n (List.mem_cons_self n rest), ?_⟩
          rcases R1 j with h1 | ⟨_, h1⟩ <;> rw [h1]
          exact setB_setB _ _ _
        · rw [if_neg hj]
          exact R1 j
      · intro c hcmem
        rcases List.mem_append.mp hcmem with hcr | hcc
        · exact R2 c (List.mem_cons_of_mem n hcr)
        · rw [hch1 n] at hcc
          exact reach_snoc (R2 n (List.mem_cons_self n rest)) hcc
      · intro j hreach
        by_cases hj : j = n
        · left
          rw [hstep j, if_pos hj]
          rfl
        · rcases R3 j hreach with htr | ⟨m, hm, hmj⟩
          · left
            rw [hstep j, if_neg hj]
            exact htr
          · rcases List.mem_cons.mp hm with hmn | hmr
            · have hnj : Reach h0 n j := hmn ▸ hmj
              cases hnj with
              | refl => exact absurd rfl hj
              | step a c b hmem hr =>
                right
                refine ⟨c, List.mem_append_right rest ?_, hr⟩
                rw [hch1 n]
                exact hmem
            · right
              exact ⟨m, List.mem_append_left _ hmr, hmj⟩

/-! ### Correctness of `Module.train` and `Module.eval` on arbitrary heaps -/

/-- A successful `m.train()` run produces exactly the input heap with every
node reachable from `m` (including `m`) overwritten to `training = True`;
every unreachable object is untouched. -/
theorem train_correct {h : Heap} {root : NodeId} {fuel : Nat} {h' : Heap}
    (hrun : Module.train h root fuel = some h') :
    ∀ i, (Reach h root i → h' i = setB (h i) true) ∧
         (¬ Reach h root i → h' i = h i) := by
  have hch0 : ∀ j, childIds (setTraining h root true) j = childIds h j :=
    childIds_setTraining h root true
  have hmain := trainLevels_char (setTraining h root true) root fuel
    (childIds (setTraining h root true) root) (setTraining h root true) h'
    (fun i => Or.inl rfl)
    (fun n hn => Reach.step root n n hn (Reach.refl n))
    (fun i hreach => by
      cases hreach with
      | refl =>
        left
        show (setTraining h root true root).training = true
        simp [setTraining, setB]
      | step a c b hm hr =>
        right
        exact ⟨c, hm, hr⟩)
    hrun
  intro i
  constructor
  · intro hreach
    have hreach0 : Reach (setTraining h root true) root i :=
      Reach_congr (fun j => (hch0 j).symm) hreach
    rw [(hmain i).1 hreach0]
    by_cases hi : i = root <;> simp [setTraining, hi, setB_setB]
  · intro hreach
    have hreach0 : ¬ Reach (setTraining h root true) root i :=
      fun hcon => hreach (Reach_congr hch0 hcon)
    rw [(hmain i).2 hreach0]
    have hi : i ≠ root := fun he => hreach (by rw [he]; exact Reach.refl root)
    simp [setTraining, hi]

/-- A successful `m.eval()` run produces exactly the input heap with every
node reachable from `m` (including `m`) overwritten to `training = False`;
every unreachable object is untouched. -/
theorem eval_correct {h : Heap} {root : NodeId} {fuel : Nat} {h' : Heap}
    (hrun : Module.eval h root fuel = some h') :
    ∀ i, (Reach h root i → h' i = setB (h i) false) ∧
         (¬ Reach h root i → h' i = h i) := by
  have hch0 : ∀ j, childIds (setTraining h root false) j = childIds h j :=
    childIds_setTraining h root false
  have hmain := evalQueue_char (setTraining h root false) root fuel
    (childIds (setTraining h root false) root) (setTraining h root false) h'
    (fun i => Or.inl rfl)
    (fun n hn => Reach.step root n n hn (Reach.refl n))
    (fun i hreach => by
      cases hreach with
      | refl =>
        left
        show (setTraining h root false root).training = false
        simp [setTraining, setB]
      | step a c b hm hr =>
        right
        exact ⟨c, hm, hr⟩)
    hrun
  intro i
  constructor
  · intro hreach
    have hreach0 : Reach (setTraining h root false) root i :=
      Reach_congr (fun j => (hch0 j).symm) hreach
    rw [(hmain i).1 hreach0]
    by_cases hi : i = root <;> simp [setTraining, hi, setB_setB]
  · intro hreach
    have hreach0 : ¬ Reach (setTraining h root false) root i :=
      fun hcon => hreach (Reach_congr hch0 hcon)
    rw [(hmain i).2 hreach0]
    have hi : i ≠ root := fun he => hreach (by rw [he]; exact Reach.refl root)
    simp [setTraining, hi]

/-! ### Sizes and termination on acyclic graphs -/

theorem MTree.size_eq (i : NodeId) (cs : List MTree) :
    MTree.size (.node i cs) = 1 + MTree.sizeL cs := by
  rw [MTree.size]

theorem MTree.sizeL_nil : MTree.sizeL [] = 0 := by
  rw [MTree.sizeL]

theorem MTree.sizeL_cons (t : MTree) (ts : List MTree) :
    MTree.sizeL (t :: ts) = MTree.size t + MTree.sizeL ts := by
  rw [MTree.sizeL]

theorem MTree.size_pos (t : MTree) : 1 ≤ MTree.size t := by
  cases t with
  | node i cs =>
    rw [MTree.size_eq]
    omega

theorem MTree.sizeL_append (ts us : List MTree) :
    MTree.sizeL (ts ++ us) = MTree.sizeL ts + MTree.sizeL us := by
  induction ts with
  | nil => simp [MTree.sizeL_nil]
  | cons t ts ih =>
    simp only [List.cons_append, MTree.sizeL_cons, ih]
    omega

theorem MTree.size_kids (t : MTree) :
    MTree.size t = 1 + MTree.sizeL t.kids := by
  cases t with
  | node i cs => rw [MTree.size_eq]; rfl

theorem sizeL_concatMap_kids (fs : List MTree) :
    MTree.sizeL (concatMap MTree.kids fs) + fs.length = MTree.sizeL fs := by
  induction fs with
  | nil => simp [concatMap, MTree.sizeL_nil]
  | cons t ts ih =>
    simp only [concatMap, MTree.sizeL_append, MTree.sizeL_cons,
      List.length_cons]
    rw [MTree.size_kids t]
    omega

theorem Represents_childIds {h : Heap} {t : MTree} (hrep : Represents h t) :
    childIds h t.root = (t.kids).map MTree.root := by
  cases hrep with
  | node i cs hc _ => exact hc

theorem Represents_kids {h : Heap} {t : MTree} (hrep : Represents h t) :
    ∀ c ∈ t.kids, Represents h c := by
  cases hrep with
  | node i cs _ hall => exact hall

/-- The `train` level loop terminates on any frontier whose nodes have
acyclic unfoldings, within fuel equal to the total unfolding size. -/
theorem trainLevels_total :
    ∀ (fuel : Nat) (fs : List MTree) (hc : Heap),
      (∀ f ∈ fs, Represents hc f) →
      MTree.sizeL fs ≤ fuel →
      ∃ h', trainLevels hc (fs.map MTree.root) fuel = some h' := by
  intro fuel
  induction fuel with
  | zero =>
    intro fs hc hrep hsz
    cases fs with
    | nil => exact ⟨hc, trainLevels_nil hc 0⟩
    | cons t ts =>
      exfalso
      have h1 := MTree.size_pos t
      rw [MTree.sizeL_cons] at hsz
      omega
  | succ fuel ih =>
    intro fs hc hrep hsz
    cases fs with
    | nil => exact ⟨hc, trainLevels_nil hc _⟩
    | cons t ts =>
      simp only [List.map_cons]
      rw [trainLevels_cons]
      have hsnd : (processLevel hc (t.root :: ts.map MTree.root)).2
          = (concatMap MTree.kids (t :: ts)).map MTree.root := by
        rw [processLevel_snd, ← List.map_cons MTree.root t ts,
          concatMap_map, map_concatMap]
        exact concatMap_congr (fun f hf => Represents_childIds (hrep f hf))
      have hchP : ∀ j,
          childIds (processLevel hc (t.root :: ts.map MTree.root)).1 j
            = childIds hc j := by
        intro j
        simp only [childIds, processLevel_fst]
        by_cases hj : j ∈ t.root :: ts.map MTree.root <;>
          simp [hj, setB]
      have hrep' : ∀ f ∈ concatMap MTree.kids (t :: ts),
          Represents (processLevel hc (t.root :: ts.map MTree.root)).1 f := by
        intro f hf
        obtain ⟨a, ha, hfa⟩ := mem_concatMap.mp hf
        exact Represents_congr (fun j => (hchP j).symm)
          (Represents_kids (hrep a ha) f hfa)
      have hsz' : MTree.sizeL (concatMap MTree.kids (t :: ts)) ≤ fuel := by
        have h1 := sizeL_concatMap_kids (t :: ts)
        rw [MTree.sizeL_cons] at hsz
        rw [MTree.sizeL_cons, List.length_cons] at h1
        omega
      obtain ⟨h', hrun⟩ := ih (concatMap MTree.kids (t :: ts)) _ hrep' hsz'
      exact ⟨h', by rw [hsnd]; exact hrun⟩

/-- The `eval` deque loop terminates on any queue whose nodes have acyclic
unfoldings, within fuel equal to the total unfolding size. -/
theorem evalQueue_total :
    ∀ (fuel : Nat) (fs : List MTree) (hc : Heap),
      (∀ f ∈ fs, Represents hc f) →
      MTree.sizeL fs ≤ fuel →
      ∃ h', evalQueue hc (fs.map MTree.root) fuel = some h' := by
  intro fuel
  induction fuel with
  | zero =>
    intro fs hc hrep hsz
    cases fs with
    | nil => exact ⟨hc, evalQueue_nil hc 0⟩
    | cons t ts =>
      exfalso
      have h1 := MTree.size_pos t
      rw [MTree.sizeL_cons] at hsz
      omega
  | succ fuel ih =>
    intro fs hc hrep hsz
    cases fs with
    | nil => exact ⟨hc, evalQueue_nil hc _⟩
    | cons t ts =>
      simp only [List.map_cons]
      rw [evalQueue_cons]
      have hch1 : ∀ j, childIds (setTraining hc t.root false) j
          = childIds hc j := childIds_setTraining hc t.root false
      have hq : ts.map MTree.root
            ++ childIds (setTraining hc t.root false) t.root
          = (ts ++ t.kids).map MTree.root := by
        rw [hch1 t.root, Represents_childIds
          (hrep t (List.mem_cons_self t ts)), List.map_append]
      rw [hq]
      have hrep' : ∀ f ∈ ts ++ t.kids,
          Represents (setTraining hc t.root false) f := by
        intro f hf
        rcases List.mem_append.mp hf with hf1 | hf2
        · exact Represents_congr (fun j => (hch1 j).symm)
            (hrep f (List.mem_cons_of_mem t hf1))
        · exact Represents_congr (fun j => (hch1 j).symm)
            (Represents_kids (hrep t (List.mem_cons_self t ts)) f hf2)
      have hsz' : MTree.sizeL (ts ++ t.kids) ≤ fuel := by
        rw [MTree.sizeL_append]
        rw [MTree.sizeL_cons] at hsz
        have h1 := MTree.size_kids t
        omega
      exact ih (ts ++ t.kids) _ hrep' hsz'

/-! ### Non-termination on cyclic graphs -/

/-- From a node that reaches a cycle, some child also reaches a cycle. -/
theorem reachesCycle_child {h : Heap} {n : NodeId} (hn : ReachesCycle h n) :
    ∃ c ∈ childIds h n, ReachesCycle h c := by
  obtain ⟨c, hnc, hcyc⟩ := hn
  cases hnc with
  | refl =>
    obtain ⟨d, hd, hdc⟩ := hcyc
    exact ⟨d, hd, ⟨n, hdc, ⟨d, hd, hdc⟩⟩⟩
  | step a e b hme hr => exact ⟨e, hme, ⟨c, hr, hcyc⟩⟩

/-- On a frontier containing a node that reaches a cycle, the `train`
level loop never finishes: it runs out of any amount of fuel. -/
theorem trainLevels_cycle (h : Heap) :
    ∀ (fuel : Nat) (hc : Heap) (ns : List NodeId),
      (∀ i, childIds hc i = childIds h i) →
      (∃ n ∈ ns, ReachesCycle h n) →
      trainLevels hc ns fuel = none := by
  intro fuel
  induction fuel with
  | zero =>
    intro hc ns hch hex
    obtain ⟨n, hn, _⟩ := hex
    cases ns with
    | nil => exact absurd hn (List.not_mem_nil n)
    | cons m rest => exact trainLevels_zero hc m rest
  | succ fuel ih =>
    intro hc ns hch hex
    obtain ⟨n, hn, hcyc⟩ := hex
    cases ns with
    | nil => exact absurd hn (List.not_mem_nil n)
    | cons m rest =>
      rw [trainLevels_cons]
      apply ih
      · intro i
        have hi := hch i
        simp only [childIds, processLevel_fst] at hi ⊢
        by_cases hmem : i ∈ m :: rest
        · simp only [if_pos hmem, setB_modules]
          exact hi
        · simp only [if_neg hmem]
          exact hi
      · rw [processLevel_snd]
        obtain ⟨c, hcm, hcyc'⟩ := reachesCycle_child hcyc
        refine ⟨c, mem_concatMap.mpr ⟨n, hn, ?_⟩, hcyc'⟩
        rw [hch n]
        exact hcm

/-- On a queue containing a node that reaches a cycle, the `eval` deque
loop never finishes. -/
theorem evalQueue_cycle (h : Heap) :
    ∀ (fuel : Nat) (hc : Heap) (ns : List NodeId),
      (∀ i, childIds hc i = childIds h i) →
      (∃ n ∈ ns, ReachesCycle h n) →
      evalQueue hc ns fuel = none := by
  intro fuel
  induction fuel with
  | zero =>
    intro hc ns hch hex
    obtain ⟨n, hn, _⟩ := hex
    cases ns with
    | nil => exact absurd hn (List.not_mem_nil n)
    | cons m rest => exact evalQueue_zero hc m rest
  | succ fuel ih =>
    intro hc ns hch hex
    obtain ⟨n, hn, hcyc⟩ := hex
    cases ns with
    | nil => exact absurd hn (List.not_mem_nil n)
    | cons m rest =>
      rw [evalQueue_cons]
      apply ih
      · intro i
        rw [childIds_setTraining]
        exact hch i
      · rcases List.mem_cons.mp hn with hnm | hnr
        · obtain ⟨c, hcm, hcyc'⟩ := reachesCycle_child hcyc
          refine ⟨c, List.mem_append_right rest ?_, hcyc'⟩
          rw [childIds_setTraining, hch m, ← hnm]
          exact hcm
        · exact ⟨n, List.mem_append_left _ hnr, hcyc⟩

/-! ### Termination wrappers -/

/-- `m.train()` terminates on a heap whose graph below `m` unfolds to a
finite tree, with fuel equal to the unfolding size. -/
theorem train_total {h : Heap} {t : MTree} (hrep : Represents h t) :
    ∃ h', Module.train h t.root (MTree.size t) = some h' := by
  cases t with
  | node i cs =>
    show ∃ h', trainLevels (setTraining h i true)
      (childIds (setTraining h i true) i) (MTree.size (.node i cs)) = some h'
    have hc0 : childIds (setTraining h i true) i = cs.map MTree.root := by
      rw [childIds_setTraining]
      exact Represents_childIds hrep
    rw [hc0]
    refine trainLevels_total (MTree.size (.node i cs)) cs _ ?_ ?_
    · exact fun f hf => Represents_congr
        (fun j => (childIds_setTraining h i true j).symm)
        (Represents_kids hrep f hf)
    · rw [MTree.size_eq]
      omega

/-- `m.eval()` terminates on a heap whose graph below `m` unfolds to a
finite tree, with fuel equal to the unfolding size. -/
theorem eval_total {h : Heap} {t : MTree} (hrep : Represents h t) :
    ∃ h', Module.eval h t.root (MTree.size t) = some h' := by
  cases t with
  | node i cs =>
    show ∃ h', evalQueue (setTraining h i false)
      (childIds (setTraining h i false) i) (MTree.size (.node i cs)) = some h'
    have hc0 : childIds (setTraining h i false) i = cs.map MTree.root := by
      rw [childIds_setTraining]
      exact Represents_childIds hrep
    rw [hc0]
    refine evalQueue_total (MTree.size (.node i cs)) cs _ ?_ ?_
    · exact fun f hf => Represents_congr
        (fun j => (childIds_setTraining h i false j).symm)
        (Represents_kids hrep f hf)
    · rw [MTree.size_eq]
      omega

/-- When a cycle is reachable from `m`, `m.train()` diverges: no amount of
fuel finishes the loop. -/
theorem train_cycle {h : Heap} {root : NodeId} (hcyc : ReachesCycle h root)
    (fuel : Nat) : Module.train h root fuel = none := by
  show trainLevels (setTraining h root true)
    (childIds (setTraining h root true) root) fuel = none
  refine trainLevels_cycle h fuel _ _ (childIds_setTraining h root true) ?_
  obtain ⟨c, hcm, hcyc'⟩ := reachesCycle_child hcyc
  refine ⟨c, ?_, hcyc'⟩
  rw [childIds_setTraining]
  exact hcm

/-- When a cycle is reachable from `m`, `m.eval()` diverges. -/
theorem eval_cycle {h : Heap} {root : NodeId} (hcyc : ReachesCycle h root)
    (fuel : Nat) : Module.eval h root fuel = none := by
  show evalQueue (setTraining h root false)
    (childIds (setTraining h root false) root) fuel = none
  refine evalQueue_cycle h fuel _ _ (childIds_setTraining h root false) ?_
  obtain ⟨c, hcm, hcyc'⟩ := reachesCycle_child hcyc
  refine ⟨c, ?_, hcyc'⟩
  rw [childIds_setTraining]
  exact hcm

/-- The heap after a successful `train`/`eval` run has the same `_modules`
registries as before, node by node. -/
theorem train_childIds_eq {h : Heap} {root : NodeId} {fuel : Nat} {h' : Heap}
    (hrun : Module.train h root fuel = some h') :
    ∀ j, childIds h j = childIds h' j := by
  intro j
  by_cases hr : Reach h root j
  · have he := (train_correct hrun j).1 hr
    simp only [childIds, he, setB_modules]
  · have he := (train_correct hrun j).2 hr
    simp only [childIds, he]

/-! ### Concrete module graphs for witnesses -/

/-- A three-node tree: module `0` owns children `1` and `2`; the flags
start out mixed. -/
def exH : Heap := fun i =>
  if i = 0 then ⟨[("branch1", 1), ("branch2", 2)], [], false⟩
  else if i = 1 then ⟨[], [], false⟩
  else ⟨[], [], true⟩

/-- The unfolding tree of `exH` at node `0`. -/
def exT : MTree := .node 0 [.node 1 [], .node 2 []]

theorem exH_represents : Represents exH exT := by
  refine Represents.node 0 [.node 1 [], .node 2 []] rfl ?_
  intro c hc
  rcases List.mem_cons.mp hc with rfl | hc2
  · exact Represents.node 1 [] rfl (fun c hc => absurd hc (List.not_mem_nil c))
  · rcases List.mem_cons.mp hc2 with rfl | hc3
    · exact Represents.node 2 [] rfl
        (fun c hc => absurd hc (List.not_mem_nil c))
    · exact absurd hc3 (List.not_mem_nil c)

theorem exH_reach1 : Reach exH 0 1 :=
  Reach.step 0 1 1 (by decide) (Reach.refl 1)

theorem exH_reach2 : Reach exH 0 2 :=
  Reach.step 0 2 2 (by decide) (Reach.refl 2)

/-- A heap where module `0` is its own child. -/
def cycH : Heap := fun i =>
  if i = 0 then ⟨[("self", 0)], [], true⟩ else ⟨[], [], true⟩

theorem cycH_reachesCycle : ReachesCycle cycH 0 :=
  ⟨0, Reach.refl 0, ⟨0, by decide, Reach.refl 0⟩⟩

/-! ### Claims about the traversals -/

/-- C1: on a finite tree-shaped module graph, whatever the prior values of
the `training` flags, `m.train()` returns (with fuel the size of the
subtree) and afterwards every module reachable from `m` — `m` included,
via `Reach.refl` — has `training = True`; symmetrically `m.eval()` leaves
every such module with `training = False`. -/
theorem claim_C1_mode_propagation {h : Heap} {t : MTree}
    (hrep : Represents h t) :
    (∃ h', Module.train h t.root (MTree.size t) = some h' ∧
      ∀ i, Reach h t.root i → (h' i).training = true) ∧
    (∃ h', Module.eval h t.root (MTree.size t) = some h' ∧
      ∀ i, Reach h t.root i → (h' i).training = false) := by
  constructor
  · obtain ⟨h', hrun⟩ := train_total hrep
    refine ⟨h', hrun, fun i hi => ?_⟩
    rw [(train_correct hrun i).1 hi]
    rfl
  · obtain ⟨h', hrun⟩ := eval_total hrep
    refine ⟨h', hrun, fun i hi => ?_⟩
    rw [(eval_correct hrun i).1 hi]
    rfl

/-- C1 witness: the three-node tree `exH`, with mixed prior flags. -/
theorem claim_C1_mode_propagation_witness :
    (∃ h', Module.train exH 0 3 = some h' ∧ (h' 0).training = true ∧
      (h' 1).training = true ∧ (h' 2).training = true) ∧
    (∃ h', Module.eval exH 0 3 = some h' ∧ (h' 0).training = false ∧
      (h' 1).training = false ∧ (h' 2).training = false) := by
  obtain ⟨⟨h1, hrun1, hall1⟩, ⟨h2, hrun2, hall2⟩⟩ :=
    claim_C1_mode_propagation exH_represents
  exact ⟨⟨h1, hrun1, hall1 0 (Reach.refl 0), hall1 1 exH_reach1,
      hall1 2 exH_reach2⟩,
    ⟨h2, hrun2, hall2 0 (Reach.refl 0), hall2 1 exH_reach1,
      hall2 2 exH_reach2⟩⟩

/-- C5: on a finite tree-shaped module graph, calling `train()` twice
leaves every node exactly as one call leaves it; moreover one call's
result is the order-free overwrite — each reachable node's record with
`training` replaced by `True`, each unreachable node untouched — so the
final state is independent of traversal order. -/
theorem claim_C5_train_idempotent {h : Heap} {t : MTree}
    (hrep : Represents h t) :
    ∃ h1 h2, Module.train h t.root (MTree.size t) = some h1 ∧
      Module.train h1 t.root (MTree.size t) = some h2 ∧
      (∀ i, h2 i = h1 i) ∧
      (∀ i, (Reach h t.root i → h1 i = setB (h i) true) ∧
        (¬ Reach h t.root i → h1 i = h i)) := by
  obtain ⟨h1, hrun1⟩ := train_total hrep
  have hcor1 := train_correct hrun1
  have hch := train_childIds_eq hrun1
  have hrep1 : Represents h1 t := Represents_congr hch hrep
  obtain ⟨h2, hrun2⟩ := train_total hrep1
  have hcor2 := train_correct hrun2
  refine ⟨h1, h2, hrun1, hrun2, fun i => ?_, hcor1⟩
  by_cases hr : Reach h t.root i
  · have hr1 : Reach h1 t.root i := Reach_congr hch hr
    rw [(hcor2 i).1 hr1, (hcor1 i).1 hr, setB_setB]
  · have hr1 : ¬ Reach h1 t.root i :=
      fun hcon => hr (Reach_congr (fun j => (hch j).symm) hcon)
    exact (hcor2 i).2 hr1

/-- C5 witness on the three-node tree. -/
theorem claim_C5_train_idempotent_witness :
    ∃ h1 h2, Module.train exH 0 3 = some h1 ∧
      Module.train h1 0 3 = some h2 ∧
      (h2 0).training = (h1 0).training ∧ (h1 1).training = true := by
  obtain ⟨h1, h2, hrun1, hrun2, heq, hchar⟩ :=
    claim_C5_train_idempotent exH_represents
  refine ⟨h1, h2, hrun1, hrun2, congrArg MNode.training (heq 0), ?_⟩
  rw [(hchar 1).1 exH_reach1]
  rfl

/-- C7: on a module graph that unfolds to a finite tree below `m` (in
particular on every finite tree-shaped graph), `m.train()` and `m.eval()`
terminate, with fuel the unfolding size; when instead a `_modules` cycle is
reachable from `m`, both loops run forever — no fuel bound ever completes
them and no error is reported. -/
theorem claim_C7_termination_vs_cycles (h : Heap) (root : NodeId) :
    (∀ t : MTree, MTree.root t = root → Represents h t →
      (∃ h', Module.train h root (MTree.size t) = some h') ∧
      (∃ h', Module.eval h root (MTree.size t) = some h')) ∧
    (ReachesCycle h root →
      ∀ fuel, Module.train h root fuel = none ∧
        Module.eval h root fuel = none) := by
  constructor
  · intro t hroot hrep
    subst hroot
    exact ⟨train_total hrep, eval_total hrep⟩
  · intro hcyc fuel
    exact ⟨train_cycle hcyc fuel, eval_cycle hcyc fuel⟩

/-- C7 witness: termination on the three-node tree, divergence at every
tried fuel on the self-loop heap. -/
theorem claim_C7_termination_vs_cycles_witness :
    (∃ h', Module.train exH 0 3 = some h') ∧
    (∃ h', Module.eval exH 0 3 = some h') ∧
    Module.train cycH 0 7 = none ∧ Module.eval cycH 0 7 = none := by
  obtain ⟨hterm, _⟩ := claim_C7_termination_vs_cycles exH 0
  obtain ⟨_, hdiv⟩ := claim_C7_termination_vs_cycles cycH 0
  obtain ⟨ht, he⟩ := hterm exT rfl exH_represents
  obtain ⟨hd1, hd2⟩ := hdiv cycH_reachesCycle 7
  exact ⟨ht, he, hd1, hd2⟩

/-- C8: on a finite tree-shaped module graph the two differently
implemented walks (level-list `train`, deque `eval`) are equivalent
traversals: both terminate, both write the flag of exactly the modules
reachable from `m` (and touch nothing else), and `m.train()` followed by
`m.eval()` ends in the same state as a single `m.eval()`. -/
theorem claim_C8_train_eval_equiv {h : Heap} {t : MTree}
    (hrep : Represents h t) :
    ∃ h1 h2 h3,
      Module.train h t.root (MTree.size t) = some h1 ∧
      Module.eval h1 t.root (MTree.size t) = some h2 ∧
      Module.eval h t.root (MTree.size t) = some h3 ∧
      (∀ i, h2 i = h3 i) ∧
      (∀ i, Reach h t.root i →
        (h1 i).training = true ∧ (h3 i).training = false) ∧
      (∀ i, ¬ Reach h t.root i → h1 i = h i ∧ h3 i = h i) := by
  obtain ⟨h1, hrun1⟩ := train_total hrep
  have hcor1 := train_correct hrun1
  have hch := train_childIds_eq hrun1
  have hrep1 : Represents h1 t := Represents_congr hch hrep
  obtain ⟨h2, hrun2⟩ := eval_total hrep1
  have hcor2 := eval_correct hrun2
  obtain ⟨h3, hrun3⟩ := eval_total hrep
  have hcor3 := eval_correct hrun3
  refine ⟨h1, h2, h3, hrun1, hrun2, hrun3, fun i => ?_,
    fun i hr => ⟨?_, ?_⟩, fun i hr => ⟨(hcor1 i).2 hr, (hcor3 i).2 hr⟩⟩
  · by_cases hr : Reach h t.root i
    · have hr1 : Reach h1 t.root i := Reach_congr hch hr
      rw [(hcor2 i).1 hr1, (hcor1 i).1 hr, setB_setB, (hcor3 i).1 hr]
    · have hr1 : ¬ Reach h1 t.root i :=
        fun hcon => hr (Reach_congr (fun j => (hch j).symm) hcon)
      rw [(hcor2 i).2 hr1, (hcor1 i).2 hr, (hcor3 i).2 hr]
  · rw [(hcor1 i).1 hr]
    rfl
  · rw [(hcor3 i).1 hr]
    rfl

/-- C8 witness on the three-node tree. -/
theorem claim_C8_train_eval_equiv_witness :
    ∃ h1 h2 h3,
      Module.train exH 0 3 = some h1 ∧ Module.eval h1 0 3 = some h2 ∧
      Module.eval exH 0 3 = some h3 ∧
      (h2 1).training = (h3 1).training ∧ (h3 2).training = false := by
  obtain ⟨h1, h2, h3, r1, r2, r3, heq, hflag, _⟩ :=
    claim_C8_train_eval_equiv exH_represents
  exact ⟨h1, h2, h3, r1, r2, r3, congrArg MNode.training (heq 1),
    (hflag 2 exH_reach2).2⟩

/-- C9: a successful `train()` or `eval()` run modifies only the
`training` flag of the visited (reachable) nodes: every node's `_modules`
and `_parameters` registries — keys, values and insertion order, being
ordered association lists — are exactly as before the call, and every
node the traversal does not visit (not reachable from the root) is left
completely untouched. (This holds for every heap and fuel on which the
call returns, tree-shaped or not.) -/
theorem claim_C9_frame (h : Heap) (root : NodeId) (fuel : Nat) (h' : Heap) :
    (Module.train h root fuel = some h' →
      ∀ i, (h' i).modules = (h i).modules ∧
        (h' i).parameters = (h i).parameters ∧
        (¬ Reach h root i → h' i = h i)) ∧
    (Module.eval h root fuel = some h' →
      ∀ i, (h' i).modules = (h i).modules ∧
        (h' i).parameters = (h i).parameters ∧
        (¬ Reach h root i → h' i = h i)) := by
  constructor
  · intro hrun i
    by_cases hr : Reach h root i
    · rw [(train_correct hrun i).1 hr]
      exact ⟨rfl, rfl, fun hcon => absurd hr hcon⟩
    · rw [(train_correct hrun i).2 hr]
      exact ⟨rfl, rfl, fun _ => rfl⟩
  · intro hrun i
    by_cases hr : Reach h root i
    · rw [(eval_correct hrun i).1 hr]
      exact ⟨rfl, rfl, fun hcon => absurd hr hcon⟩
    · rw [(eval_correct hrun i).2 hr]
      exact ⟨rfl, rfl, fun _ => rfl⟩

/-- Node `5` is not reachable from `0` in `exH`: the only children of `0`
are `1` and `2`, both leaves. -/
theorem exH_not_reach5 : ¬ Reach exH 0 5 := by
  intro hr
  cases hr with
  | step a c b hm hr2 =>
    simp [childIds, exH] at hm
    rcases hm with rfl | rfl <;>
      cases hr2 with
      | step a2 c2 b2 hm2 _ => simp [childIds, exH] at hm2

/-- C9 witness: the registries of `exH`'s root are untouched by `train`,
and the unreachable node `5` keeps its whole record. -/
theorem claim_C9_frame_witness :
    ∃ h', Module.train exH 0 3 = some h' ∧
      (h' 0).modules = (exH 0).modules ∧
      (h' 0).parameters = (exH 0).parameters ∧
      h' 5 = exH 5 := by
  obtain ⟨h', hrun⟩ := train_total exH_represents
  have h0 := (claim_C9_frame exH 0 3 h').1 hrun 0
  have h5 := (claim_C9_frame exH 0 3 h').1 hrun 5
  exact ⟨h', hrun, h0.1, h0.2.1, h5.2.2 exH_not_reach5⟩

end Minitorch
